import Mathlib

/-!
# Verification of the `adpytools` micro HTTP dispatcher and debug helper

A shallow embedding of `src/adpytools/microhttpd.py` (the `Dispatch`
matching algorithm and the response-writing decision of
`MyHTTPRequestHandler.do_all`) and of `src/adpytools/debugging.py`
(the `Debug` / `DebugSet` / `DebugUnset` flag store), together with
theorems settling the specification claims about them.

Strings are modelled as `List Char`; the Python string operations used
by the source (`rsplit(c, 1)[0]`, `rpartition(c)`, `split('/')[-1:][0]`,
slicing `url[n:]`) are embedded as functions on `List Char` below.
-/

/-- Python strings, modelled as lists of characters. -/
abbrev Str := List Char

/-- The characters strictly after the last occurrence of `c` in `s`
(the whole of `s` when `c` does not occur).  This is Python's
`s.rpartition(c)[2]`, and also the last element of `s.split(c)`. -/
def suffAfterLast (c : Char) (s : Str) : Str :=
  (s.reverse.takeWhile (fun a => a ≠ c)).reverse

/-- The characters strictly before the last occurrence of `c` in `s`
(empty when `c` does not occur). -/
def prefBeforeLast (c : Char) (s : Str) : Str :=
  ((s.reverse.dropWhile (fun a => a ≠ c)).tail).reverse

/-- Python's `s.rsplit(c, 1)[0]`: the part before the last occurrence of
`c`, or the whole string when `c` does not occur.  Note that when `c`
does not occur the string is returned UNCHANGED (not truncated to
empty). -/
def rsplitHead (c : Char) (s : Str) : Str :=
  if c ∈ s then prefBeforeLast c s else s

/-- Python's `s.rpartition(c)[0]`: the part before the last occurrence
of `c`, or the EMPTY string when `c` does not occur. -/
def rpartitionPre (c : Char) (s : Str) : Str :=
  if c ∈ s then prefBeforeLast c s else []

/-- Python's `s.rpartition(c)[2]`: the part after the last occurrence of
`c`, or the whole string when `c` does not occur. -/
def rpartitionPost (c : Char) (s : Str) : Str :=
  suffAfterLast c s

/-- The method string literals used by `Dispatch.call` and `do_all`. -/
def putS : Str := "PUT".data

def getS : Str := "GET".data

def postS : Str := "POST".data

/-- The reserved catch-all key: `self.bindings.has_key("default")`. -/
def defaultKey : Str := "default".data

/-- A table entry: `self.bindings[url] = {"method": method, "note": note}`.
Handlers are opaque application callables; they are identified here by an
opaque numeric id. -/
structure Binding where
  method : Nat
  note : Option Str
  deriving DecidableEq

/-- `self.bindings`, a dict from exact path string to `Binding`, modelled
as an association list looked up by exact string equality. -/
abbrev BindingTable := List (Str × Binding)

/-- Dict lookup by exact key equality (first hit; keys are unique in any
table reachable through `bind`/`unbind`). -/
def lookupB (tbl : BindingTable) (url : Str) : Option Binding :=
  match tbl with
  | [] => none
  | (k, b) :: rest => if k = url then some b else lookupB rest url

/-- Removal of every entry for a key; on the unique-key tables the code
builds this is exactly the dict's `del bindings[url]` (with the
`try/except: pass` making a missing key a no-op). -/
def eraseKey (tbl : BindingTable) (url : Str) : BindingTable :=
  match tbl with
  | [] => []
  | (k, b) :: rest =>
      if k = url then eraseKey rest url else (k, b) :: eraseKey rest url

/-- `Dispatch.bind`: `self.bindings[url] = {"method": method, "note": note}` —
insert, silently replacing any existing binding for `url`. -/
def Dispatch.bind (tbl : BindingTable) (url : Str) (b : Binding) : BindingTable :=
  (url, b) :: eraseKey tbl url

/-- `Dispatch.unbind`: delete the binding for `url` if present, no-op
otherwise. -/
def Dispatch.unbind (tbl : BindingTable) (url : Str) : BindingTable :=
  eraseKey tbl url

/-- What `Dispatch.call` does, up to the opaque handler invocation:
either it invokes the binding found at key `path` with arguments
`(type, match = path, ext, rest, note = b.note)`, or it invokes the
`"default"` binding with `match = ''`, `ext = ''`, or it returns the
not-found sentinel dict `{'r': None, 'c': 404, 'h': None}`. -/
inductive Outcome where
  | hit (path ext rest : Str) (b : Binding)
  | defaulted (rest : Str) (b : Binding)
  | notFound
  deriving DecidableEq

/-- Result of the fuel-bounded embedding of `call`'s `while` loop:
`diverge` marks fuel exhaustion, which (see `callLoopFuel_ok_of_slash`
and `C2_counterexample`) happens exactly when the Python loop runs
forever. -/
inductive CallResult where
  | ok (o : Outcome)
  | diverge
  deriving DecidableEq

/-- The extension-extraction step at the top of each loop iteration:

```
if (match.split('/')[-1:][0].rpartition('.')[2] ==
    match.split('/')[-1:][0]):
    match = match
    ext = ''
else:
    ext = '.' + match.rpartition('.')[2]
    match = match.rpartition('.')[0]
```

returning the pair `(match, ext)` after these assignments. -/
def extSplit (m : Str) : Str × Str :=
  if rpartitionPost '.' (suffAfterLast '/' m) = suffAfterLast '/' m then
    (m, [])
  else
    (rpartitionPre '.' m, '.' :: rpartitionPost '.' m)

/-- The tail of `call` after the loop:

```
if self.bindings.has_key("default"):
    if type != 'PUT':
        data = url
    return self.bindings["default"]["method"](type=type, match='', ext='',
        rest=data, note=self.bindings["default"]["note"])
return {'r': None, 'c': httplib.NOT_FOUND, 'h': None}
```
-/
def defaultOrNotFound (tbl : BindingTable) (url ty data : Str) : CallResult :=
  match lookupB tbl defaultKey with
  | some b => CallResult.ok (Outcome.defaulted (if ty = putS then data else url) b)
  | none => CallResult.ok Outcome.notFound

/-- The `while len(match) > 0:` loop of `Dispatch.call`, with an explicit
fuel (number of remaining loop-guard evaluations).  One unit of fuel is
consumed per guard check; `diverge` is returned when fuel runs out.  The
body is, faithfully: extension extraction (`extSplit`), the
`self.bindings.has_key(match)` check (a hit returns, recomputing `data`
as `url[len(match + ext):]` for non-`PUT` methods), and otherwise the
backward truncation `match = match.rsplit('/', 1)[0]`. -/
def callLoopFuel (tbl : BindingTable) (url ty data : Str) : Nat → Str → CallResult
  | 0, _ => CallResult.diverge
  | fuel + 1, m =>
    if 0 < m.length then
      match lookupB tbl (extSplit m).1 with
      | some b =>
          CallResult.ok (Outcome.hit (extSplit m).1 (extSplit m).2
            (if ty = putS then data
             else url.drop ((extSplit m).1 ++ (extSplit m).2).length) b)
      | none => callLoopFuel tbl url ty data fuel (rsplitHead '/' (extSplit m).1)
    else
      defaultOrNotFound tbl url ty data

/-- `match = url.rsplit('?', 1)[0]`: the working path the loop starts
from — everything before the LAST `'?'` of `url` (the whole `url` when
it has no `'?'`). -/
def workingPath (url : Str) : Str :=
  rsplitHead '?' url

/-- `Dispatch.call(url, type, data)`.  The loop either strictly shortens
`match` on every non-returning iteration or reaches a state it never
leaves again (see `callLoopFuel_ok_of_slash` and `C2_counterexample`),
so `(workingPath url).length + 1` units of fuel are exact: the result is
`ok _` iff the Python loop returns, and `diverge` iff it runs forever. -/
def Dispatch.call (tbl : BindingTable) (url ty data : Str) : CallResult :=
  callLoopFuel tbl url ty data ((workingPath url).length + 1) (workingPath url)

/-- `call` runs forever on this input: every fuel bound is exhausted. -/
def Dispatch.Diverges (tbl : BindingTable) (url ty data : Str) : Prop :=
  ∀ fuel, callLoopFuel tbl url ty data fuel (workingPath url) = CallResult.diverge

/-- The loop of `call` instrumented with an iteration counter: identical
to `callLoopFuel` (see `callLoopIters_fst`), but additionally reporting
how many times the loop body ran before returning. -/
def callLoopIters (tbl : BindingTable) (url ty data : Str) :
    Nat → Str → Nat → CallResult × Nat
  | 0, _, k => (CallResult.diverge, k)
  | fuel + 1, m, k =>
    if 0 < m.length then
      match lookupB tbl (extSplit m).1 with
      | some b =>
          (CallResult.ok (Outcome.hit (extSplit m).1 (extSplit m).2
            (if ty = putS then data
             else url.drop ((extSplit m).1 ++ (extSplit m).2).length) b), k + 1)
      | none => callLoopIters tbl url ty data fuel (rsplitHead '/' (extSplit m).1) (k + 1)
    else
      (defaultOrNotFound tbl url ty data, k)

/-- `Dispatch.call` with the iteration count of the matching loop. -/
def callN (tbl : BindingTable) (url ty data : Str) : CallResult × Nat :=
  callLoopIters tbl url ty data ((workingPath url).length + 1) (workingPath url) 0

/-- The stateful view of `Dispatch.call`: the method reads
`self.bindings` and assigns only local variables (`match`, `ext`,
`data`), so the bindings table after the call is the table before it. -/
def Dispatch.callS (tbl : BindingTable) (url ty data : Str) : CallResult × BindingTable :=
  (Dispatch.call tbl url ty data, tbl)

/-- The operations an application can perform on a `Dispatch` instance's
binding table. -/
inductive DispatchOp where
  | bindOp (url : Str) (b : Binding)
  | unbindOp (url : Str)
  | callOp (url ty data : Str)
  deriving DecidableEq

/-- Effect of one operation on `self.bindings`. -/
def applyOp (tbl : BindingTable) : DispatchOp → BindingTable
  | DispatchOp.bindOp url b => Dispatch.bind tbl url b
  | DispatchOp.unbindOp url => Dispatch.unbind tbl url
  | DispatchOp.callOp url ty data => (Dispatch.callS tbl url ty data).2

/-- Run a sequence of operations from a starting table.  `Dispatch`'s
constructor initialises `self.bindings = {}`, i.e. the empty table. -/
def runOps (tbl : BindingTable) (ops : List DispatchOp) : BindingTable :=
  ops.foldl applyOp tbl

/-- The path strings bound in a table. -/
def keysOf (tbl : BindingTable) : List Str :=
  tbl.map (fun p => p.1)

/-! ## `MyHTTPRequestHandler.do_all` — the response-writing decision -/

/-- The dict a dispatch result is: each of the keys `'c'`, `'r'`, `'h'`
may be present or absent.  (`Dispatch.call`'s own not-found sentinel is
`{'r': None, 'c': 404, 'h': None}`, i.e. `c = some 404` with `r` and `h`
carrying `None`, which coincides with absent against the `None`/`200`
defaults below.) -/
structure RDict where
  c : Option Nat
  r : Option Str
  h : Option (List (Str × Str))
  deriving DecidableEq

/-- `r = {'r': None, 'c': httplib.OK, 'h': None}` followed by
`r.update(result)`. -/
def updateR (result : RDict) : Nat × Option Str × Option (List (Str × Str)) :=
  (result.c.getD 200, result.r, result.h)

/-- What `do_all` does to the connection after the dispatch: either it
returns `None` having written nothing (the caller may then delegate), or
it writes a response: a status line (via `send_error` when the code is
`>= 400`, `send_response` otherwise), the handler's headers plus an
appended `Content-Length` computed from the body, and the body if any. -/
inductive DoAllResult where
  | handoff
  | wrote (usedSendError : Bool) (status : Nat) (headers : List (Str × Str))
      (contentLength : Nat) (body : Option Str)
  deriving DecidableEq

/-- The response-writing decision of `MyHTTPRequestHandler.do_all`, as a
function of the method and the dispatch result:

```
r = {'r': None, 'c': httplib.OK, 'h': None}
r.update(result)
if r['c'] is httplib.NOT_FOUND:
    return None  # Hand off to the "regular" SimpleHTTPServer
if r['c'] >= httplib.BAD_REQUEST: self.send_error(...)
else: self.send_response(...)
cl = len(r['r']) if r['r'] is not None else 0
... append ('Content-Length', cl) to r['h'] (synthesizing the list) ...
```

(The source compares with `is`; the constant is the very object the 404
sentinel carries, so the comparison is by value here.)  Note the `return
None` is NOT conditioned on the method: it fires for every method. -/
def MyHTTPRequestHandler.do_all (method : Str) (result : RDict) : DoAllResult :=
  let r := updateR result
  if r.1 = 404 then
    DoAllResult.handoff
  else
    DoAllResult.wrote (decide (400 ≤ r.1)) r.1 (r.2.2.getD [])
      ((r.2.1.map (fun s => s.length)).getD 0) r.2.1

/-- Whether the request is handed to the static-file fallback: only
`do_GET` inspects `do_all`'s return value —
`if self.do_all("GET") is None: SimpleHTTPServer...do_GET(self)`;
`do_POST`/`do_PUT`/`do_DELETE` discard it. -/
def MyHTTPRequestHandler.delegatesToStatic (method : Str) (result : RDict) : Bool :=
  decide (method = getS) && decide (MyHTTPRequestHandler.do_all method result = DoAllResult.handoff)

/-! ## `debugging.py` — the `Debug`/`DebugSet`/`DebugUnset` flag store -/

/-- The default argument `name=" "` shared by the three functions. -/
def spcS : Str := " ".data

/-- The module state: the key set of the `__vars` dict (each key maps to
itself, so the dict is a set), plus the `__debug` flag (written by
`DebugSet`/`DebugUnset` but never read by `Debug`). -/
structure DebugState where
  vars : List Str
  dbg : Bool
  deriving DecidableEq

/-- `Debug(name=" ")`: `return name in __vars`. -/
def Debug (st : DebugState) (name : Str) : Bool :=
  decide (name ∈ st.vars)

/-- `DebugSet(name=" ")`: `__debug = True; __vars[name] = name`. -/
def DebugSet (st : DebugState) (name : Str) : DebugState :=
  { vars := if name ∈ st.vars then st.vars else name :: st.vars, dbg := true }

/-- `DebugUnset(name=" ")`: with the default argument, `__debug = False;
__vars = {}`; with a word, `del __vars[name]` (missing key ignored). -/
def DebugUnset (st : DebugState) (name : Str) : DebugState :=
  if name = spcS then { vars := [], dbg := false }
  else { vars := st.vars.filter (fun v => decide (v ≠ name)), dbg := st.dbg }

/-- The mutating operations on the debug store. -/
inductive DebugOp where
  | dset (name : Str)
  | dunset (name : Str)
  deriving DecidableEq

/-- Effect of one operation. -/
def applyD (st : DebugState) : DebugOp → DebugState
  | DebugOp.dset name => DebugSet st name
  | DebugOp.dunset name => DebugUnset st name

/-- Run a sequence of debug operations. -/
def runD (st : DebugState) (ops : List DebugOp) : DebugState :=
  ops.foldl applyD st

/-- A concrete opaque handler binding used in concrete instances. -/
def b0 : Binding := { method := 0, note := none }

/-! ## Lemmas about the string helpers -/

theorem takeWhile_append_all {p : Char → Bool} {xs ys : List Char}
    (h : ∀ x ∈ xs, p x = true) :
    (xs ++ ys).takeWhile p = xs ++ ys.takeWhile p := by
  induction xs with
  | nil => simp
  | cons a t ih =>
      have ha : p a = true := h a (List.mem_cons_self a t)
      have ht : ∀ x ∈ t, p x = true := fun x hx => h x (List.mem_cons_of_mem a hx)
      simp [List.takeWhile_cons, ha, ih ht]

theorem dropWhile_append_all {p : Char → Bool} {xs ys : List Char}
    (h : ∀ x ∈ xs, p x = true) :
    (xs ++ ys).dropWhile p = ys.dropWhile p := by
  induction xs with
  | nil => simp
  | cons a t ih =>
      have ha : p a = true := h a (List.mem_cons_self a t)
      have ht : ∀ x ∈ t, p x = true := fun x hx => h x (List.mem_cons_of_mem a hx)
      simp [List.dropWhile_cons, ha, ih ht]

theorem all_ne_of_not_mem {c : Char} {l : Str} (h : c ∉ l) :
    ∀ x ∈ l.reverse, (fun a => decide (a ≠ c)) x = true := by
  intro x hx
  simp only [List.mem_reverse] at hx
  simp only [decide_eq_true_eq]
  intro he
  exact h (he ▸ hx)

theorem suffAfterLast_concat {c : Char} (pre suf : Str) (h : c ∉ suf) :
    suffAfterLast c (pre ++ c :: suf) = suf := by
  unfold suffAfterLast
  rw [List.reverse_append, List.reverse_cons, List.append_assoc,
    takeWhile_append_all (all_ne_of_not_mem h)]
  simp [List.takeWhile_cons]

theorem prefBeforeLast_concat {c : Char} (pre suf : Str) (h : c ∉ suf) :
    prefBeforeLast c (pre ++ c :: suf) = pre := by
  unfold prefBeforeLast
  rw [List.reverse_append, List.reverse_cons, List.append_assoc,
    dropWhile_append_all (all_ne_of_not_mem h)]
  simp [List.dropWhile_cons]

theorem suffAfterLast_of_not_mem {c : Char} {s : Str} (h : c ∉ s) :
    suffAfterLast c s = s := by
  unfold suffAfterLast
  rw [List.takeWhile_eq_self_iff.mpr]
  · exact s.reverse_reverse
  · intro x hx
    simp only [List.mem_reverse] at hx
    simp only [decide_eq_true_eq]
    intro he
    exact h (he ▸ hx)

theorem prefBeforeLast_of_not_mem {c : Char} {s : Str} (h : c ∉ s) :
    prefBeforeLast c s = [] := by
  unfold prefBeforeLast
  rw [List.dropWhile_eq_nil_iff.mpr]
  · rfl
  · intro x hx
    simp only [List.mem_reverse] at hx
    simp only [decide_eq_true_eq]
    intro he
    exact h (he ▸ hx)

/-- Every string containing `c` splits uniquely at the LAST occurrence
of `c`. -/
theorem exists_last_decomp {c : Char} {s : Str} (h : c ∈ s) :
    ∃ pre suf, s = pre ++ c :: suf ∧ c ∉ suf := by
  induction s with
  | nil => cases h
  | cons a t ih =>
      by_cases hct : c ∈ t
      · obtain ⟨pre, suf, he, hn⟩ := ih hct
        exact ⟨a :: pre, suf, by rw [he]; rfl, hn⟩
      · have hac : a = c := by
          rcases List.mem_cons.mp h with h1 | h2
          · exact h1.symm
          · exact absurd h2 hct
        exact ⟨[], t, by simp [hac], hct⟩

theorem suffAfterLast_suffix (c : Char) (s : Str) :
    ∃ t, s = t ++ suffAfterLast c s := by
  by_cases h : c ∈ s
  · obtain ⟨pre, suf, he, hn⟩ := exists_last_decomp h
    refine ⟨pre ++ [c], ?_⟩
    rw [he, suffAfterLast_concat pre suf hn, List.append_assoc]
    rfl
  · exact ⟨[], by rw [suffAfterLast_of_not_mem h]; rfl⟩

theorem not_mem_suffAfterLast (c : Char) (s : Str) : c ∉ suffAfterLast c s := by
  by_cases h : c ∈ s
  · obtain ⟨pre, suf, he, hn⟩ := exists_last_decomp h
    rw [he, suffAfterLast_concat pre suf hn]
    exact hn
  · rw [suffAfterLast_of_not_mem h]
    exact h

theorem rpartitionPost_eq_self_iff (c : Char) (s : Str) :
    rpartitionPost c s = s ↔ c ∉ s := by
  constructor
  · intro he hc
    obtain ⟨pre, suf, hd, hn⟩ := exists_last_decomp hc
    unfold rpartitionPost at he
    rw [hd, suffAfterLast_concat pre suf hn] at he
    have hlen : (pre ++ c :: suf).length = suf.length := by rw [← he]
    simp only [List.length_append, List.length_cons] at hlen
    omega
  · intro h
    exact suffAfterLast_of_not_mem h

theorem rsplitHead_concat {c : Char} (pre suf : Str) (h : c ∉ suf) :
    rsplitHead c (pre ++ c :: suf) = pre := by
  unfold rsplitHead
  rw [if_pos (by simp), prefBeforeLast_concat pre suf h]

theorem rsplitHead_of_not_mem {c : Char} {s : Str} (h : c ∉ s) :
    rsplitHead c s = s := by
  unfold rsplitHead
  rw [if_neg h]

/-! ## Lemmas about the extension-extraction step and the loop -/

theorem extSplit_no_dot {m : Str} (h : '.' ∉ suffAfterLast '/' m) :
    extSplit m = (m, []) := by
  unfold extSplit
  rw [if_pos ((rpartitionPost_eq_self_iff '.' (suffAfterLast '/' m)).mpr h)]

theorem mem_of_mem_suffAfterLast {c d : Char} {s : Str}
    (h : c ∈ suffAfterLast d s) : c ∈ s := by
  obtain ⟨t, ht⟩ := suffAfterLast_suffix d s
  rw [ht]
  exact List.mem_append_right t h

theorem extSplit_dot {m : Str} (h : '.' ∈ suffAfterLast '/' m) :
    extSplit m = (prefBeforeLast '.' m, '.' :: suffAfterLast '.' m) := by
  unfold extSplit
  rw [if_neg fun he => (rpartitionPost_eq_self_iff '.' (suffAfterLast '/' m)).mp he h]
  unfold rpartitionPre rpartitionPost
  rw [if_pos (mem_of_mem_suffAfterLast h)]

/-- The working path after extraction is an initial part of the one
before it. -/
theorem extSplit_fst_init (m : Str) : ∃ t, m = (extSplit m).1 ++ t := by
  by_cases h : '.' ∈ suffAfterLast '/' m
  · obtain ⟨pre, suf, hd, hn⟩ := exists_last_decomp (mem_of_mem_suffAfterLast h)
    rw [extSplit_dot h, hd, prefBeforeLast_concat pre suf hn]
    exact ⟨'.' :: suf, rfl⟩
  · rw [extSplit_no_dot h]
    exact ⟨[], by simp⟩

theorem extSplit_fst_length (m : Str) : (extSplit m).1.length ≤ m.length := by
  obtain ⟨t, ht⟩ := extSplit_fst_init m
  have hlen : m.length = (extSplit m).1.length + t.length := by
    conv_lhs => rw [ht]
    rw [List.length_append]
  omega

theorem head?_append_left {l t : Str} (h : l ≠ []) : (l ++ t).head? = l.head? := by
  cases l with
  | nil => exact absurd rfl h
  | cons a r => rfl

/-- One loop iteration on a hit. -/
theorem callLoopFuel_hit {tbl : BindingTable} {url ty data : Str} {b : Binding}
    (fuel : Nat) (m : Str) (hm : 0 < m.length)
    (hl : lookupB tbl (extSplit m).1 = some b) :
    callLoopFuel tbl url ty data (fuel + 1) m =
      CallResult.ok (Outcome.hit (extSplit m).1 (extSplit m).2
        (if ty = putS then data
         else url.drop ((extSplit m).1 ++ (extSplit m).2).length) b) := by
  unfold callLoopFuel
  rw [if_pos hm, hl]

/-- One loop iteration on a miss: backward truncation. -/
theorem callLoopFuel_miss {tbl : BindingTable} {url ty data : Str}
    (fuel : Nat) (m : Str) (hm : 0 < m.length)
    (hl : lookupB tbl (extSplit m).1 = none) :
    callLoopFuel tbl url ty data (fuel + 1) m =
      callLoopFuel tbl url ty data fuel (rsplitHead '/' (extSplit m).1) := by
  conv_lhs => rw [callLoopFuel]
  rw [if_pos hm, hl]

/-- Loop exit on the empty working path. -/
theorem callLoopFuel_nil {tbl : BindingTable} {url ty data : Str} (fuel : Nat) :
    callLoopFuel tbl url ty data (fuel + 1) [] = defaultOrNotFound tbl url ty data := by
  unfold callLoopFuel
  rw [if_neg (by simp)]

/-- The instrumented loop computes the same result as the plain one. -/
theorem callLoopIters_fst (tbl : BindingTable) (url ty data : Str) :
    ∀ fuel m k, (callLoopIters tbl url ty data fuel m k).1 =
      callLoopFuel tbl url ty data fuel m := by
  intro fuel
  induction fuel with
  | zero => intro m k; rfl
  | succ n ih =>
      intro m k
      by_cases hm : 0 < m.length
      · rcases hl : lookupB tbl (extSplit m).1 with _ | b
        · unfold callLoopIters callLoopFuel
          rw [if_pos hm, if_pos hm, hl]
          exact ih (rsplitHead '/' (extSplit m).1) (k + 1)
        · unfold callLoopIters callLoopFuel
          rw [if_pos hm, if_pos hm, hl]
      · unfold callLoopIters callLoopFuel
        rw [if_neg hm, if_neg hm]

/-- Termination of the matching loop for every working path that is
empty or begins with `'/'` (in particular for every HTTP request path):
each non-returning iteration strictly shortens the path and preserves
the invariant, so the given fuel suffices. -/
theorem callLoopFuel_ok_of_slash (tbl : BindingTable) (url ty data : Str) :
    ∀ fuel m, m.length < fuel → (m = [] ∨ m.head? = some '/') →
      ∃ o, callLoopFuel tbl url ty data fuel m = CallResult.ok o := by
  intro fuel
  induction fuel with
  | zero => intro m hm _; exact absurd hm (Nat.not_lt_zero _)
  | succ n ih =>
      intro m hm hv
      rcases hv with rfl | hhd
      · rw [callLoopFuel_nil n]
        unfold defaultOrNotFound
        rcases lookupB tbl defaultKey with _ | b
        · exact ⟨Outcome.notFound, rfl⟩
        · exact ⟨Outcome.defaulted (if ty = putS then data else url) b, rfl⟩
      · have hne : m ≠ [] := by
          intro h
          rw [h] at hhd
          exact Option.noConfusion hhd
        have hpos : 0 < m.length := List.length_pos.mpr hne
        rcases hl : lookupB tbl (extSplit m).1 with _ | b
        · -- miss: establish the facts about the truncated path, then recurse
          obtain ⟨t, hinit⟩ := extSplit_fst_init m
          have hm1hd : (extSplit m).1 = [] ∨ (extSplit m).1.head? = some '/' := by
            by_cases h1 : (extSplit m).1 = []
            · exact Or.inl h1
            · right
              rw [← head?_append_left h1 (t := t), ← hinit]
              exact hhd
          have hkey : (rsplitHead '/' (extSplit m).1).length < m.length ∧
              (rsplitHead '/' (extSplit m).1 = [] ∨
               (rsplitHead '/' (extSplit m).1).head? = some '/') := by
            by_cases hsl : '/' ∈ (extSplit m).1
            · obtain ⟨p, s, hd, hn⟩ := exists_last_decomp hsl
              rw [hd, rsplitHead_concat p s hn]
              constructor
              · have hp : p.length < (extSplit m).1.length := by
                  rw [hd]
                  simp [List.length_append]
                exact lt_of_lt_of_le hp (extSplit_fst_length m)
              · by_cases hp0 : p = []
                · exact Or.inl hp0
                · right
                  have h1 : (extSplit m).1 ≠ [] := by
                    intro h
                    rw [h] at hsl
                    cases hsl
                  have := hm1hd.resolve_left h1
                  rw [hd, head?_append_left hp0] at this
                  exact this
            · rw [rsplitHead_of_not_mem hsl]
              have h1 : (extSplit m).1 = [] := by
                rcases hm1hd with h1 | h1
                · exact h1
                · exfalso
                  apply hsl
                  cases he : (extSplit m).1 with
                  | nil => rw [he] at h1; cases h1
                  | cons a r =>
                      rw [he] at h1
                      have : a = '/' := by
                        simpa using h1
                      rw [this]
                      exact List.mem_cons_self _ _
              rw [h1]
              exact ⟨hpos, Or.inl rfl⟩
          obtain ⟨o, ho⟩ := ih (rsplitHead '/' (extSplit m).1)
            (lt_of_lt_of_le hkey.1 (Nat.lt_succ_iff.mp hm)) hkey.2
          exact ⟨o, by rw [callLoopFuel_miss n m hpos hl]; exact ho⟩
        · exact ⟨_, callLoopFuel_hit n m hpos hl⟩

/-! ## The binding table under bind/unbind/call -/

theorem keysOf_eraseKey_sublist (tbl : BindingTable) (url : Str) :
    List.Sublist (keysOf (eraseKey tbl url)) (keysOf tbl) := by
  induction tbl with
  | nil => exact List.Sublist.refl _
  | cons p rest ih =>
      obtain ⟨k, b⟩ := p
      by_cases hk : k = url
      · simp only [eraseKey, if_pos hk, keysOf, List.map_cons]
        exact List.Sublist.cons k ih
      · simp only [eraseKey, if_neg hk, keysOf, List.map_cons]
        exact List.Sublist.cons₂ k ih

theorem not_mem_keysOf_eraseKey (tbl : BindingTable) (url : Str) :
    url ∉ keysOf (eraseKey tbl url) := by
  induction tbl with
  | nil => simp [eraseKey, keysOf]
  | cons p rest ih =>
      obtain ⟨k, b⟩ := p
      by_cases hk : k = url
      · simpa only [eraseKey, if_pos hk] using ih
      · simp only [eraseKey, if_neg hk, keysOf, List.map_cons, List.mem_cons]
        rintro (he | hm)
        · exact hk he.symm
        · exact ih hm

theorem nodup_keysOf_applyOp {tbl : BindingTable} (h : (keysOf tbl).Nodup)
    (op : DispatchOp) : (keysOf (applyOp tbl op)).Nodup := by
  cases op with
  | bindOp url b =>
      have hnd : (keysOf (eraseKey tbl url)).Nodup :=
        List.Nodup.sublist (keysOf_eraseKey_sublist tbl url) h
      have he : keysOf (applyOp tbl (DispatchOp.bindOp url b)) =
          url :: keysOf (eraseKey tbl url) := rfl
      rw [he]
      exact List.nodup_cons.mpr ⟨not_mem_keysOf_eraseKey tbl url, hnd⟩
  | unbindOp url =>
      exact List.Nodup.sublist (keysOf_eraseKey_sublist tbl url) h
  | callOp url ty data => exact h

theorem nodup_keysOf_runOps (ops : List DispatchOp) :
    ∀ tbl : BindingTable, (keysOf tbl).Nodup → (keysOf (runOps tbl ops)).Nodup := by
  induction ops with
  | nil => intro tbl h; exact h
  | cons op rest ih => intro tbl h; exact ih (applyOp tbl op) (nodup_keysOf_applyOp h op)

/-! ## The debug flag store under its operations -/

theorem mem_vars_runD {w : Str} (ops : List DebugOp) :
    ∀ st : DebugState, w ∈ st.vars →
      (∀ op ∈ ops, op ≠ DebugOp.dunset w ∧ op ≠ DebugOp.dunset spcS) →
      w ∈ (runD st ops).vars := by
  induction ops with
  | nil => intro st h _; exact h
  | cons op rest ih =>
      intro st h hops
      have hop := hops op (List.mem_cons_self _ _)
      have hrest := fun o ho => hops o (List.mem_cons_of_mem op ho)
      refine ih (applyD st op) ?_ hrest
      cases op with
      | dset n =>
          simp only [applyD, DebugSet]
          by_cases hn : n ∈ st.vars
          · rw [if_pos hn]; exact h
          · rw [if_neg hn]; exact List.mem_cons_of_mem n h
      | dunset n =>
          have hn1 : n ≠ w := fun he => hop.1 (by rw [he])
          have hn2 : n ≠ spcS := fun he => hop.2 (by rw [he])
          simp only [applyD, DebugUnset, if_neg hn2]
          refine List.mem_filter.mpr ⟨h, ?_⟩
          simp only [decide_eq_true_eq]
          exact fun he => hn1 he.symm

theorem not_mem_vars_runD {w : Str} (ops : List DebugOp) :
    ∀ st : DebugState, w ∉ st.vars → (∀ op ∈ ops, op ≠ DebugOp.dset w) →
      w ∉ (runD st ops).vars := by
  induction ops with
  | nil => intro st h _; exact h
  | cons op rest ih =>
      intro st h hops
      have hop := hops op (List.mem_cons_self _ _)
      have hrest := fun o ho => hops o (List.mem_cons_of_mem op ho)
      refine ih (applyD st op) ?_ hrest
      cases op with
      | dset n =>
          have hn : n ≠ w := fun he => hop (by rw [he])
          simp only [applyD, DebugSet]
          by_cases hmem : n ∈ st.vars
          · rw [if_pos hmem]; exact h
          · rw [if_neg hmem]
            intro hc
            rcases List.mem_cons.mp hc with he | hm
            · exact hn he.symm
            · exact h hm
      | dunset n =>
          simp only [applyD, DebugUnset]
          by_cases hn : n = spcS
          · rw [if_pos hn]; simp
          · rw [if_neg hn]
            intro hc
            exact h (List.mem_filter.mp hc).1

/-! ## The working path (query split) -/

theorem workingPath_concat {u v : Str} (h : '?' ∉ v) :
    workingPath (u ++ '?' :: v) = u :=
  rsplitHead_concat u v h

theorem workingPath_of_not_mem {u : Str} (h : '?' ∉ u) : workingPath u = u :=
  rsplitHead_of_not_mem h

theorem workingPath_eq_nil_iff (url : Str) :
    workingPath url = [] ↔ url = [] ∨ ∃ v, url = '?' :: v ∧ '?' ∉ v := by
  by_cases hq : '?' ∈ url
  · obtain ⟨pre, suf, hd, hn⟩ := exists_last_decomp hq
    subst hd
    rw [workingPath_concat hn]
    constructor
    · rintro rfl
      exact Or.inr ⟨suf, rfl, hn⟩
    · rintro (he | ⟨v, hv, hnv⟩)
      · exact absurd he (by simp)
      · cases pre with
        | nil => rfl
        | cons a t =>
            rw [List.cons_append] at hv
            injection hv with h1 h2
            refine absurd ?_ hnv
            rw [← h2]
            exact List.mem_append_right t (List.mem_cons_self _ _)
  · rw [workingPath_of_not_mem hq]
    constructor
    · rintro rfl
      exact Or.inl rfl
    · rintro (rfl | ⟨v, hv, _⟩)
      · rfl
      · refine absurd ?_ hq
        rw [hv]
        exact List.mem_cons_self '?' v

/-! ## Step lemmas for the instrumented loop -/

theorem callLoopIters_hit {tbl : BindingTable} {url ty data : Str} {b : Binding}
    (fuel : Nat) (m : Str) (k : Nat) (hm : 0 < m.length)
    (hl : lookupB tbl (extSplit m).1 = some b) :
    callLoopIters tbl url ty data (fuel + 1) m k =
      (CallResult.ok (Outcome.hit (extSplit m).1 (extSplit m).2
        (if ty = putS then data
         else url.drop ((extSplit m).1 ++ (extSplit m).2).length) b), k + 1) := by
  conv_lhs => rw [callLoopIters]
  rw [if_pos hm, hl]

theorem callLoopIters_miss {tbl : BindingTable} {url ty data : Str}
    (fuel : Nat) (m : Str) (k : Nat) (hm : 0 < m.length)
    (hl : lookupB tbl (extSplit m).1 = none) :
    callLoopIters tbl url ty data (fuel + 1) m k =
      callLoopIters tbl url ty data fuel (rsplitHead '/' (extSplit m).1) (k + 1) := by
  conv_lhs => rw [callLoopIters]
  rw [if_pos hm, hl]

/-! ## The claims -/

/-- Claim C1, counterexample: the claim asserts that with a binding at
`/a/b` and none at `/a/b/c`, `call("/a/b/c", method, body)` passes
`rest = "/c"` for every method — but for `PUT` the code passes the
request body instead: here the handler receives `rest = "xyz"`. -/
theorem C1_counterexample :
    Dispatch.call [(("/a/b").data, b0)] (("/a/b/c").data) putS (("xyz").data)
      = CallResult.ok (Outcome.hit (("/a/b").data) [] (("xyz").data) b0)
    ∧ decide ((("xyz").data : Str) = ("/c").data) = false :=
  ⟨rfl, rfl⟩

/-- Claim C1 (amended): with a binding at `/a/b` and none at `/a/b/c`,
`call("/a/b/c", method, body)` invokes that binding's handler with
`matchedPrefix = "/a/b"`, `extension = ""`, and `rest = "/c"` for
non-`PUT` methods (`rest = body` for `PUT`); and `call("/foo/bartsimpson",
...)` against a table binding `/foo/bar` (and not `/foo/bartsimpson`)
never invokes the `/foo/bar` binding: it hits a `/foo` binding when one
is present (with `rest = "/bartsimpson"` for non-`PUT`), and otherwise
falls to the default binding or the 404 sentinel. -/
theorem C1_amended :
    (∀ (tbl : BindingTable) (b : Binding) (ty data : Str),
        lookupB tbl (("/a/b").data) = some b →
        lookupB tbl (("/a/b/c").data) = none →
        Dispatch.call tbl (("/a/b/c").data) ty data =
          CallResult.ok (Outcome.hit (("/a/b").data) []
            (if ty = putS then data else ("/c").data) b))
  ∧ (∀ (tbl : BindingTable) (b2 b : Binding) (ty data : Str),
        lookupB tbl (("/foo/bar").data) = some b2 →
        lookupB tbl (("/foo/bartsimpson").data) = none →
        lookupB tbl (("/foo").data) = some b →
        Dispatch.call tbl (("/foo/bartsimpson").data) ty data =
          CallResult.ok (Outcome.hit (("/foo").data) []
            (if ty = putS then data else ("/bartsimpson").data) b))
  ∧ (∀ (tbl : BindingTable) (b2 : Binding) (ty data : Str),
        lookupB tbl (("/foo/bar").data) = some b2 →
        lookupB tbl (("/foo/bartsimpson").data) = none →
        lookupB tbl (("/foo").data) = none →
        Dispatch.call tbl (("/foo/bartsimpson").data) ty data =
          defaultOrNotFound tbl (("/foo/bartsimpson").data) ty data) := by
  refine ⟨?_, ?_, ?_⟩
  · intro tbl b ty data h1 h2
    have h2x : lookupB tbl (extSplit (("/a/b/c").data)).1 = none := h2
    have h1x : lookupB tbl
        (extSplit (rsplitHead '/' (extSplit (("/a/b/c").data)).1)).1 = some b := h1
    exact (callLoopFuel_miss 6 (("/a/b/c").data) (by decide) h2x).trans
      (callLoopFuel_hit 5 (rsplitHead '/' (extSplit (("/a/b/c").data)).1)
        (by decide) h1x)
  · intro tbl b2 b ty data h1 h2 h3
    have h2x : lookupB tbl (extSplit (("/foo/bartsimpson").data)).1 = none := h2
    have h3x : lookupB tbl
        (extSplit (rsplitHead '/' (extSplit (("/foo/bartsimpson").data)).1)).1 = some b := h3
    exact (callLoopFuel_miss 16 (("/foo/bartsimpson").data) (by decide) h2x).trans
      (callLoopFuel_hit 15 (rsplitHead '/' (extSplit (("/foo/bartsimpson").data)).1)
        (by decide) h3x)
  · intro tbl b2 ty data h1 h2 h3
    have h2x : lookupB tbl (extSplit (("/foo/bartsimpson").data)).1 = none := h2
    have h3x : lookupB tbl
        (extSplit (rsplitHead '/' (extSplit (("/foo/bartsimpson").data)).1)).1 = none := h3
    exact (callLoopFuel_miss 16 (("/foo/bartsimpson").data) (by decide) h2x).trans
      ((callLoopFuel_miss 15 (rsplitHead '/' (extSplit (("/foo/bartsimpson").data)).1)
          (by decide) h3x).trans
        (callLoopFuel_nil 14))

/-- Claim C1, witness for the amended theorem at a concrete table. -/
theorem C1_witness :
    Dispatch.call [(("/a/b").data, b0)] (("/a/b/c").data) getS [] =
      CallResult.ok (Outcome.hit (("/a/b").data) [] (("/c").data) b0) :=
  C1_amended.1 [(("/a/b").data, b0)] b0 getS [] (by decide) (by decide)

/-- Claim C2, counterexample: the matching loop does NOT terminate for
every url — Python's `rsplit('/', 1)[0]` leaves a string without `'/'`
unchanged instead of truncating it to empty, so on the url `"a"` with an
empty binding table the loop state is stuck at `"a"` forever: every fuel
bound is exhausted. -/
theorem C2_counterexample : Dispatch.Diverges [] (("a").data) getS [] := by
  intro fuel
  induction fuel with
  | zero => rfl
  | succ n ih =>
      have estep : callLoopFuel [] (("a").data) getS [] (n + 1)
            (workingPath (("a").data)) =
          callLoopFuel [] (("a").data) getS [] n (workingPath (("a").data)) :=
        callLoopFuel_miss n (workingPath (("a").data)) (by decide) (by decide)
      rw [estep]
      exact ih

/-- Claim C2 (amended): the matching loop terminates for every binding
table and every url whose working path (the part before the last `'?'`)
is empty or begins with `'/'` — in particular for every HTTP request
path.  (For a nonempty working path containing no `'/'`, `rsplit('/',
1)[0]` is the identity, and an unbound such path loops forever, as the
counterexample shows.) -/
theorem C2_amended : ∀ (tbl : BindingTable) (url ty data : Str),
    (workingPath url = [] ∨ (workingPath url).head? = some '/') →
    ∃ o, Dispatch.call tbl url ty data = CallResult.ok o := by
  intro tbl url ty data h
  exact callLoopFuel_ok_of_slash tbl url ty data ((workingPath url).length + 1)
    (workingPath url) (Nat.lt_succ_self _) h

/-- Claim C2, witness for the amended theorem at a concrete url. -/
theorem C2_witness :
    ∃ o, Dispatch.call [] (("/x").data) getS [] = CallResult.ok o :=
  C2_amended [] (("/x").data) getS [] (Or.inr (by decide))

/-- Claim C3: against any table binding `/foo/bar`,
`call("/foo/bar.json?x=1", "GET", body)` invokes that binding's handler
with `extension = ".json"` and `rest = "?x=1"`; and in general, whenever
the final `/`-delimited segment of the working path contains a `'.'`,
the extraction step yields `extension = '.' +` (the substring after the
last `'.'`) and truncates the working path to the substring before that
last `'.'` before the binding-table lookup. -/
theorem C3_thm :
    (∀ (tbl : BindingTable) (b : Binding) (data : Str),
        lookupB tbl (("/foo/bar").data) = some b →
        Dispatch.call tbl (("/foo/bar.json?x=1").data) getS data =
          CallResult.ok (Outcome.hit (("/foo/bar").data) ((".json").data)
            (("?x=1").data) b))
  ∧ (∀ m : Str, '.' ∈ suffAfterLast '/' m →
      extSplit m = (prefBeforeLast '.' m, '.' :: suffAfterLast '.' m)) := by
  constructor
  · intro tbl b data h
    have hx : lookupB tbl
        (extSplit (workingPath (("/foo/bar.json?x=1").data))).1 = some b := h
    exact callLoopFuel_hit 13 (workingPath (("/foo/bar.json?x=1").data))
      (by decide) hx
  · exact fun m h => extSplit_dot h

/-- Claim C3, witness at a concrete table. -/
theorem C3_witness :
    Dispatch.call [(("/foo/bar").data, b0)] (("/foo/bar.json?x=1").data) getS [] =
      CallResult.ok (Outcome.hit (("/foo/bar").data) ((".json").data)
        (("?x=1").data) b0) :=
  C3_thm.1 [(("/foo/bar").data, b0)] b0 [] (by decide)

/-- Claim C4, counterexample: the working path is taken before the LAST
`'?'`, not the first: for `"/a?b?c"` it is `"/a?b"`, not `"/a"`, and
content after the first `'?'` does take part in matching — a binding at
the path `"/a?b"` is hit. -/
theorem C4_counterexample :
    workingPath (("/a?b?c").data) = ("/a?b").data
    ∧ decide ((("/a?b").data : Str) = ("/a").data) = false
    ∧ Dispatch.call [(("/a?b").data, b0)] (("/a?b?c").data) getS [] =
        CallResult.ok (Outcome.hit (("/a?b").data) [] (("?c").data) b0) :=
  ⟨rfl, rfl, rfl⟩

/-- Claim C4 (amended): `call` derives the working path for matching as
the portion of the url strictly before the LAST `'?'` character (the
whole url when it has none); for `"/a?b?c"` that is `"/a?b"`. -/
theorem C4_amended :
    (∀ u v : Str, '?' ∉ v → workingPath (u ++ '?' :: v) = u)
  ∧ (∀ u : Str, '?' ∉ u → workingPath u = u)
  ∧ (∀ (tbl : BindingTable) (url ty data : Str),
      Dispatch.call tbl url ty data =
        callLoopFuel tbl url ty data ((workingPath url).length + 1) (workingPath url)) :=
  ⟨fun u v h => workingPath_concat h, fun u h => workingPath_of_not_mem h,
   fun tbl url ty data => rfl⟩

/-- Claim C4, witness for the amended theorem at a concrete split. -/
theorem C4_witness :
    workingPath ((("/a").data) ++ '?' :: (("x").data)) = ("/a").data :=
  C4_amended.1 (("/a").data) (("x").data) (by decide)

/-- Claim C5, counterexample: a hit found after the first iteration CAN
carry a non-empty extension: with a binding at `/a` only,
`call("/a.b/c", "GET", "")` hits on iteration 2 (after one backward
truncation) with `extension = ".b"`. -/
theorem C5_counterexample :
    callN [(("/a").data, b0)] (("/a.b/c").data) getS [] =
      (CallResult.ok (Outcome.hit (("/a").data) ((".b").data) (("/c").data) b0), 2)
    ∧ decide (((".b").data : Str) = []) = false
    ∧ decide (2 ≤ 1) = false :=
  ⟨rfl, rfl, rfl⟩

/-- Claim C5 (amended): the per-iteration extension recomputation is
live code — a later iteration observes a non-empty extension whenever
backward truncation leaves a working path whose final segment contains a
`'.'`: for every table binding `/a` but not `/a.b/c`, `call("/a.b/c",
method, body)` hits on the SECOND iteration with `extension = ".b"`,
`matchedPrefix = "/a"`, and `rest = "/c"` for non-`PUT` methods. -/
theorem C5_amended : ∀ (tbl : BindingTable) (b : Binding) (ty data : Str),
    lookupB tbl (("/a").data) = some b →
    lookupB tbl (("/a.b/c").data) = none →
    callN tbl (("/a.b/c").data) ty data =
      (CallResult.ok (Outcome.hit (("/a").data) ((".b").data)
        (if ty = putS then data else ("/c").data) b), 2) := by
  intro tbl b ty data h1 h2
  have h2x : lookupB tbl (extSplit (("/a.b/c").data)).1 = none := h2
  have h1x : lookupB tbl
      (extSplit (rsplitHead '/' (extSplit (("/a.b/c").data)).1)).1 = some b := h1
  exact (callLoopIters_miss 6 (("/a.b/c").data) 0 (by decide) h2x).trans
    (callLoopIters_hit 5 (rsplitHead '/' (extSplit (("/a.b/c").data)).1) 1
      (by decide) h1x)

/-- Claim C5, witness for the amended theorem at a concrete table, with
the `PUT` branch exercised. -/
theorem C5_witness :
    callN [(("/a").data, b0)] (("/a.b/c").data) putS (("BODY").data) =
      (CallResult.ok (Outcome.hit (("/a").data) ((".b").data)
        (("BODY").data) b0), 2) :=
  C5_amended [(("/a").data, b0)] b0 putS (("BODY").data) (by decide) (by decide)

/-- Claim C6, counterexample: the decline-to-write is NOT GET-only — for
a `POST` whose dispatch result carries the 404 status, `do_all` returns
`None` having written no response at all. -/
theorem C6_counterexample :
    MyHTTPRequestHandler.do_all postS { c := some 404, r := none, h := none } =
      DoAllResult.handoff
    ∧ decide (postS = getS) = false :=
  ⟨rfl, rfl⟩

/-- Claim C6 (amended): `do_all` declines to write a response exactly
when the dispatch result's status equals the not-found sentinel (404),
REGARDLESS of the method; only the additional delegation to the
static-file fallback is GET-only, because only `do_GET` inspects
`do_all`'s `None`.  A non-GET request with a 404 dispatch result gets no
response written at all. -/
theorem C6_amended : ∀ (method : Str) (result : RDict),
    (MyHTTPRequestHandler.do_all method result = DoAllResult.handoff ↔
      (updateR result).1 = 404)
  ∧ (MyHTTPRequestHandler.delegatesToStatic method result =
      (decide (method = getS) && decide ((updateR result).1 = 404))) := by
  intro method result
  have hiff : MyHTTPRequestHandler.do_all method result = DoAllResult.handoff ↔
      (updateR result).1 = 404 := by
    unfold MyHTTPRequestHandler.do_all
    by_cases h : (updateR result).1 = 404
    · simp [h]
    · simp [h]
  refine ⟨hiff, ?_⟩
  unfold MyHTTPRequestHandler.delegatesToStatic
  congr 1
  exact decide_eq_decide.mpr hiff

/-- Claim C6, witness: the amended equivalence applied at a concrete
non-GET 404 input. -/
theorem C6_witness :
    MyHTTPRequestHandler.do_all putS { c := some 404, r := none, h := none } =
      DoAllResult.handoff :=
  (C6_amended putS { c := some 404, r := none, h := none }).1.mpr rfl

/-- Claim C7: `call` is read-only on the binding table — running any
sequence of `bind`/`unbind`/`call` operations from the freshly
constructed dispatcher, a `call` step leaves the table exactly
unchanged, and the table always carries at most one binding per exact
path string (its key list has no duplicates). -/
theorem C7_thm : ∀ (ops : List DispatchOp) (url ty data : Str),
    applyOp (runOps [] ops) (DispatchOp.callOp url ty data) = runOps [] ops
  ∧ (Dispatch.callS (runOps [] ops) url ty data).2 = runOps [] ops
  ∧ (keysOf (runOps [] ops)).Nodup := by
  intro ops url ty data
  exact ⟨rfl, rfl, nodup_keysOf_runOps ops [] (by simp [keysOf])⟩

/-- Claim C8: a binding whose path's final segment contains a `'.'` is
never matched by the url equal to that exact path — with `/foo.json`
bound and `/foo` not bound, `call("/foo.json", ...)` strips the
extension before the lookup (the key probed is `/foo`, never
`/foo.json`) and falls through to the default binding or the 404
sentinel. -/
theorem C8_thm : ∀ (tbl : BindingTable) (b : Binding) (ty data : Str),
    lookupB tbl (("/foo.json").data) = some b →
    lookupB tbl (("/foo").data) = none →
    Dispatch.call tbl (("/foo.json").data) ty data =
      defaultOrNotFound tbl (("/foo.json").data) ty data := by
  intro tbl b ty data h1 h2
  have h2x : lookupB tbl (extSplit (workingPath (("/foo.json").data))).1 = none := h2
  exact (callLoopFuel_miss 9 (workingPath (("/foo.json").data)) (by decide) h2x).trans
    (callLoopFuel_nil 8)

/-- Claim C8, witness at a concrete table (result: the 404 sentinel). -/
theorem C8_witness :
    Dispatch.call [(("/foo.json").data, b0)] (("/foo.json").data) getS [] =
      defaultOrNotFound [(("/foo.json").data, b0)] (("/foo.json").data) getS [] :=
  C8_thm [(("/foo.json").data, b0)] b0 getS [] (by decide) (by decide)

/-- Claim C9, counterexample: a url beginning with `'?'` need NOT have
an empty working path — for `"?a?b"` the working path is `"?a"` (the
split is at the last `'?'`), and a regular binding at the path `"?a"` IS
invoked. -/
theorem C9_counterexample :
    ((("?a?b").data : Str)).head? = some '?'
    ∧ Dispatch.call [(("?a").data, b0)] (("?a?b").data) getS [] =
        CallResult.ok (Outcome.hit (("?a").data) [] (("?b").data) b0) :=
  ⟨rfl, rfl⟩

/-- Claim C9 (amended): for every url whose working path is empty — that
is, the url is empty or consists of `'?'` followed by a `'?'`-free
string — `call` skips the matching loop entirely and returns the default
binding's invocation (`matchedPrefix = ""`, `extension = ""`, `rest` =
the body for `PUT`, else the full original url) when `"default"` is
bound, and the 404 sentinel otherwise; no regular binding is invoked. -/
theorem C9_amended :
    (∀ (tbl : BindingTable) (url ty data : Str), workingPath url = [] →
        Dispatch.call tbl url ty data = defaultOrNotFound tbl url ty data)
  ∧ (∀ url : Str, workingPath url = [] ↔
      url = [] ∨ ∃ v, url = '?' :: v ∧ '?' ∉ v) := by
  constructor
  · intro tbl url ty data h
    unfold Dispatch.call
    rw [h]
    exact callLoopFuel_nil _
  · exact workingPath_eq_nil_iff

/-- Claim C9, witness for the amended theorem at a concrete url. -/
theorem C9_witness :
    Dispatch.call [] (("?x").data) getS [] =
      defaultOrNotFound [] (("?x").data) getS [] :=
  C9_amended.1 [] (("?x").data) getS [] (by decide)

/-- Claim C10: the `Debug`/`DebugSet`/`DebugUnset` round-trip — after
`DebugSet(w)`, `Debug(w)` is `True` through any further operations that
are neither `DebugUnset(w)` nor the clear-all `DebugUnset()`; after
`DebugUnset(w)`, `Debug(w)` is `False` through any further operations
that are not `DebugSet(w)`; and after a no-argument `DebugUnset()`,
`Debug` answers `False` for every word (and for the no-argument default)
until some `DebugSet` is performed. -/
theorem C10_thm : ∀ (st : DebugState) (w : Str) (ops : List DebugOp),
    ((∀ op ∈ ops, op ≠ DebugOp.dunset w ∧ op ≠ DebugOp.dunset spcS) →
      Debug (runD (DebugSet st w) ops) w = true)
  ∧ ((∀ op ∈ ops, op ≠ DebugOp.dset w) →
      Debug (runD (DebugUnset st w) ops) w = false)
  ∧ ((∀ op ∈ ops, ∀ u : Str, op ≠ DebugOp.dset u) →
      ∀ u : Str, Debug (runD (DebugUnset st spcS) ops) u = false) := by
  intro st w ops
  refine ⟨?_, ?_, ?_⟩
  · intro hops
    have hw : w ∈ (DebugSet st w).vars := by
      simp only [DebugSet]
      by_cases h : w ∈ st.vars
      · rw [if_pos h]; exact h
      · rw [if_neg h]; exact List.mem_cons_self _ _
    simp only [Debug, decide_eq_true_eq]
    exact mem_vars_runD ops (DebugSet st w) hw hops
  · intro hops
    have hw : w ∉ (DebugUnset st w).vars := by
      unfold DebugUnset
      by_cases h : w = spcS
      · rw [if_pos h]; simp
      · rw [if_neg h]
        intro hc
        have hd := (List.mem_filter.mp hc).2
        simp only [decide_eq_true_eq] at hd
        exact hd rfl
    simp only [Debug, decide_eq_false_iff_not]
    exact not_mem_vars_runD ops (DebugUnset st w) hw hops
  · intro hops u
    have hw : u ∉ (DebugUnset st spcS).vars := by
      unfold DebugUnset
      rw [if_pos rfl]
      simp
    simp only [Debug, decide_eq_false_iff_not]
    exact not_mem_vars_runD ops (DebugUnset st spcS) hw (fun o ho => hops o ho u)

/-- Claim C10, witness at a concrete state and word. -/
theorem C10_witness :
    Debug (runD (DebugSet { vars := [], dbg := false } (("foo").data)) [])
      (("foo").data) = true :=
  (C10_thm { vars := [], dbg := false } (("foo").data) []).1
    (by intro op h; cases h)
